import Mathlib

/-!
Shallow embedding of `bonusly_poker.py`: the game-ledger state model
(`Player`, `Game`), the chip-mapping calculation from `_setup_game`, and
the greedy settlement sweep `_calculate_settlements`, together with proofs
of the specified invariants.

Python integers are embedded as `Int` (chip counts and denominations,
which the interaction layer validates to be non-negative before the core
ever sees them, as `Nat`).  Python dicts keyed by player name are embedded
as association lists in insertion order, with `dictSet`/`dictGet` giving
the dict's assignment/lookup semantics.  Fallible operations return
`Except`; the interactive re-prompt loops of `record_round` surface as an
`Option` result (`none` = the attempt is rejected and the caller must
resupply input; no state is produced).
-/

namespace BonuslyPoker

/-- One player's ledger, mirroring `Player.__init__`: a name, the fixed
starting stack, the mutable stack, the append-only bet log
`(round, amount)`, the parallel action log `(round, action)`, and the
latched soft-violation flag. -/
structure Player where
  name : String
  starting_stack : Int
  stack : Int
  bets : List (Nat × Int)
  actions : List (Nat × String)
  went_negative_override : Bool
deriving Repr, DecidableEq

/-- `Player.__init__(name, starting_stack)`: stack starts at the starting
stack, both logs empty, override flag false. -/
def Player.init (name : String) (starting_stack : Int) : Player :=
  { name := name
    starting_stack := starting_stack
    stack := starting_stack
    bets := []
    actions := []
    went_negative_override := false }

/-- `Player.record_action`: append to both logs and decrement the stack.
Total, with no error path, exactly as in the source. -/
def Player.record_action (p : Player) (round_number : Nat) (action : String)
    (amount : Int) : Player :=
  { p with
    bets := p.bets ++ [(round_number, amount)]
    actions := p.actions ++ [(round_number, action)]
    stack := p.stack - amount }

/-- `Player.total_bet`: sum of the amounts in the bet log. -/
def Player.total_bet (p : Player) : Int :=
  (p.bets.map Prod.snd).sum

/-- One entry of `Game.history`, mirroring the dict literal appended in
`record_round`. -/
structure HistoryEntry where
  round : Nat
  player : String
  action : String
  amount : Int
  pot_after : Int
deriving Repr, DecidableEq

/-- The `Game` state, mirroring `Game.__init__`'s attributes. `net_results`
is a Python dict keyed by player name, embedded as an association list in
insertion order. -/
structure Game where
  players : List Player
  dealer : String
  big_blind : String
  small_blind : String
  base_unit : Nat
  chip_denoms : List Nat
  pot : Int
  round : Nat
  history : List HistoryEntry
  winner : Option String
  net_results : List (String × Int)
deriving Repr, DecidableEq

/-- `Game.__init__`: pot 0, round counter 1, empty history, no winner,
empty net-results dict. -/
def Game.init (players : List Player) (dealer big_blind small_blind : String)
    (base_unit : Nat) (chip_denoms : List Nat) : Game :=
  { players := players
    dealer := dealer
    big_blind := big_blind
    small_blind := small_blind
    base_unit := base_unit
    chip_denoms := chip_denoms
    pot := 0
    round := 1
    history := []
    winner := none
    net_results := [] }

/-- Python dict assignment `d[k] = v`: overwrite the value if the key is
present, otherwise append the pair at the end (insertion order). -/
def dictSet (d : List (String × Int)) (k : String) (v : Int) :
    List (String × Int) :=
  if k ∈ d.map Prod.fst then
    d.map (fun kv => if kv.1 = k then (kv.1, v) else kv)
  else d ++ [(k, v)]

/-- Python dict lookup `d[k]` (as an `Option`): value of the first pair
with the given key. -/
def dictGet (d : List (String × Int)) (k : String) : Option Int :=
  (d.find? (fun kv => kv.1 == k)).map Prod.snd

/-- `Game.set_winner`: raise `ValueError` (embedded as `Except.error`
carrying the message) when the name is not among the players; otherwise
store the winner name and rebuild `net_results` from scratch, assigning
`net = -total_bet`, plus the pot for the player whose name matches the
winner.  The Python `repr` quoting in the message is elided. -/
def Game.set_winner (g : Game) (winner_name : String) : Except String Game :=
  if winner_name ∉ g.players.map Player.name then
    Except.error ("Unknown winner name: " ++ winner_name)
  else
    Except.ok
      { g with
        winner := some winner_name
        net_results :=
          g.players.foldl
            (fun d p =>
              dictSet d p.name
                (if p.name = winner_name then -p.total_bet + g.pot
                 else -p.total_bet)) [] }

/-- The betting-type actions of `record_round`: those for which chip
counts are collected and converted. -/
def isBettingAction (action : String) : Bool :=
  ["bet", "raise", "all-in", "call"].contains action

/-- The chip-count conversion of `record_round`: `total_units` is the sum
of `count * denom` over the denominations, pairing each denomination with
the count supplied for it. -/
def chipTotal (chip_denoms counts : List Nat) : Nat :=
  ((chip_denoms.zip counts).map (fun dc => dc.2 * dc.1)).sum

/-- One player's turn input to `record_round`: the action string, the
per-denomination chip counts (already validated non-negative by the
interaction layer, hence `Nat`), and whether the player answered `y` to
the soft-violation confirmation prompt. -/
structure RoundInput where
  action : String
  counts : List Nat
  confirm : Bool
deriving Repr, DecidableEq

/-- `amount_bonusly` as computed in `record_round`: 0 for non-betting
actions, otherwise `total_units * base_unit`. -/
def Game.inputAmount (g : Game) (inp : RoundInput) : Int :=
  if isBettingAction inp.action then
    ((chipTotal g.chip_denoms inp.counts * g.base_unit : Nat) : Int)
  else 0

/-- The committed effect of one player's turn in `record_round` on the
game: set the override flag when the projected total bet exceeds the
starting stack (on the committed path this only happens when the player
confirmed), record the action on the player's ledger, add the amount to
the pot, and append one history entry.  Out-of-range indices leave the
game unchanged (the source iterates only over actual players). -/
def Game.commitInput (g : Game) (i round_no : Nat) (inp : RoundInput) : Game :=
  match g.players[i]? with
  | none => g
  | some p =>
    let amount := g.inputAmount inp
    let p1 :=
      if isBettingAction inp.action ∧ p.starting_stack < p.total_bet + amount
      then { p with went_negative_override := true } else p
    { g with
      players := g.players.set i (p1.record_action round_no inp.action amount)
      pot := g.pot + amount
      history := g.history ++
        [{ round := round_no
           player := p.name
           action := inp.action
           amount := amount
           pot_after := g.pot + amount }] }

/-- One attempt at a player's turn in `record_round`.  When a betting-type
action's projected total bet exceeds the starting stack and the player
does not confirm, the source re-prompts without mutating anything:
embedded as `none`.  Otherwise the attempt commits. -/
def Game.tryPlayerAction (g : Game) (i round_no : Nat) (inp : RoundInput) :
    Option Game :=
  match g.players[i]? with
  | none => none
  | some p =>
    if isBettingAction inp.action ∧
        p.starting_stack < p.total_bet + g.inputAmount inp ∧
        inp.confirm = false
    then none
    else some (g.commitInput i round_no inp)

/-- Commit the turns of the players from index `i` onwards, one input per
player, in player-list order (the committed trace of `record_round`'s
player loop). -/
def Game.commitInputs (g : Game) (i round_no : Nat) :
    List RoundInput → Game
  | [] => g
  | inp :: rest => (g.commitInput i round_no inp).commitInputs (i + 1) round_no rest

/-- `Game.record_round` restricted to its committed effects: every player
takes one (committed) turn in list order using the round number captured
at entry, then the round counter increments. -/
def Game.recordRoundFrom (g : Game) (inputs : List RoundInput) : Game :=
  let g1 := g.commitInputs 0 g.round inputs
  { g1 with round := g1.round + 1 }

/-- Any sequence of recorded rounds. -/
def Game.playRounds (g : Game) (scripts : List (List RoundInput)) : Game :=
  scripts.foldl Game.recordRoundFrom g

/-- The number of low-order bits a non-negative integer loses when
converted to an IEEE-754 double (53-bit significand): the least `e` with
`n < 2 ^ (53 + e)`, so 0 for every `n < 2 ^ 53`, where the conversion is
exact.  The search bound 1104 exceeds every exponent relevant below the
double overflow threshold `2 ^ 1024`; any `n` large enough to exhaust it
rounds far above that threshold, where `setupChipMapping` reports
overflow regardless. -/
def floatDropBits (n : Nat) : Nat :=
  ((List.range 1104).find? (fun e => decide (n < 2 ^ (53 + e)))).getD 1104

/-- Python `float(n)` for a non-negative integer `n`: round `n` to a
53-bit significand, to nearest, ties to even.  The result is the exact
integer value of the double (or `2 ^ 1024` and beyond when the
conversion would overflow). -/
def floatOfNat (n : Nat) : Nat :=
  let e := floatDropBits n
  let q := n / 2 ^ e
  let r := n % 2 ^ e
  if 2 * r > 2 ^ e ∨ (2 * r = 2 ^ e ∧ q % 2 = 1) then (q + 1) * 2 ^ e
  else q * 2 ^ e

/-- Modelled from `_setup_game` lines 312-333: the chip-mapping
calculation.  `min_stack * 0.25` converts `min_stack` to a double
(`floatOfNat`, rounding to nearest) and then multiplies by `0.25`, which
only shifts the exponent and is exact, so
`chip_100_value = int(min_stack * 0.25) = floatOfNat min_stack / 4`;
`none` models the `OverflowError` Python raises when `float(min_stack)`
exceeds the double range (rounds to `2 ^ 1024` or beyond).  The `// 100`
steps and the fallback `max(1, min_stack // 100)` are exact integer
arithmetic in the source.  Returns the chosen base unit together with
the fixed denomination list. -/
def setupChipMapping (min_stack : Nat) : Option (Nat × List Nat) :=
  if 2 ^ 1024 ≤ floatOfNat min_stack then none
  else
    let chip_100_value := floatOfNat min_stack / 4
    let base_unit := chip_100_value / 100
    if base_unit < 1 then some (max 1 (min_stack / 100), [1, 5, 25, 100])
    else some (base_unit, [1, 5, 25, 100])

/-- A settlement transfer, mirroring the dict
`{"from": ..., "to": ..., "amount": ...}` appended by
`_calculate_settlements` (`from` and `to` are Lean keywords, hence `from_`, `to_`). -/
structure Settlement where
  from_ : String
  to_ : String
  amount : Int
deriving Repr, DecidableEq

/-- The debtor list of `_calculate_settlements`: `(name, -net)` for the
entries with negative net, in encounter order. -/
def debtorsOf (net_totals : List (String × Int)) : List (String × Int) :=
  net_totals.filterMap (fun nv => if nv.2 < 0 then some (nv.1, -nv.2) else none)

/-- The creditor list of `_calculate_settlements`: `(name, net)` for the
entries with positive net, in encounter order. -/
def creditorsOf (net_totals : List (String × Int)) : List (String × Int) :=
  net_totals.filterMap (fun nv => if 0 < nv.2 then some nv else none)

/-- The greedy while-loop of `_calculate_settlements`.  Each step
transfers `min debt credit` from the head debtor to the head creditor.
The source then advances whichever side's remaining magnitude hit zero;
since the amount is the minimum, `debt - amount = 0` iff `debt ≤ credit`
and `credit - amount = 0` iff `credit ≤ debt`, which is exactly the
trichotomy below. -/
def settleLoop (ds cs : List (String × Int)) : List Settlement :=
  match ds, cs with
  | [], _ => []
  | _ :: _, [] => []
  | (dn, da) :: ds1, (cn, ca) :: cs1 =>
    { from_ := dn, to_ := cn, amount := min da ca } ::
      (if da < ca then settleLoop ds1 ((cn, ca - da) :: cs1)
       else if ca < da then settleLoop ((dn, da - ca) :: ds1) cs1
       else settleLoop ds1 cs1)
termination_by ds.length + cs.length
decreasing_by
  all_goals simp [List.length_cons]
  all_goals omega

/-- `BonuslyPokerApp._calculate_settlements`: partition the net totals
into debtors and creditors (encounter order) and run the greedy sweep. -/
def calculate_settlements (net_totals : List (String × Int)) :
    List Settlement :=
  settleLoop (debtorsOf net_totals) (creditorsOf net_totals)

/-- Apply one transfer to a list of running balances exactly as the spec
describes: subtract the amount from the debtor's balance and add it to
the creditor's. -/
def applySettlement (bal : List (String × Int)) (s : Settlement) :
    List (String × Int) :=
  bal.map (fun nv =>
    if nv.1 = s.from_ then (nv.1, nv.2 - s.amount)
    else if nv.1 = s.to_ then (nv.1, nv.2 + s.amount) else nv)

/-- Running balances after applying every produced transfer in order.
Each player's running balance starts at the amount they still owe, the
negation of their net total (positive for debtors, negative for
creditors); each transfer is subtracted from the debtor's balance and
added to the creditor's. -/
def runBalances (net_totals : List (String × Int)) (ss : List Settlement) :
    List (String × Int) :=
  ss.foldl applySettlement (net_totals.map (fun nv => (nv.1, -nv.2)))

/-- Total amount a given name pays across a transfer list. -/
def paidBy (n : String) : List Settlement → Int
  | [] => 0
  | s :: ss => (if s.from_ = n then s.amount else 0) + paidBy n ss

/-- Total amount a given name receives across a transfer list. -/
def receivedBy (n : String) : List Settlement → Int
  | [] => 0
  | s :: ss => (if s.to_ = n then s.amount else 0) + receivedBy n ss

/-- Sum of the magnitudes carried by a given name in a (name, magnitude)
list. -/
def sumFor (n : String) : List (String × Int) → Int
  | [] => 0
  | x :: l => (if x.1 = n then x.2 else 0) + sumFor n l

/-- Sum of all magnitudes in a (name, magnitude) list. -/
def sumMag (l : List (String × Int)) : Int :=
  (l.map Prod.snd).sum

/-! Concrete example values used to exercise the theorems below:
the two-player scenario of the spec (A and B start with 100, each puts
20 into the pot in round one, A wins). -/

/-- The example game state after round one: A bet 20, B called 20. -/
def gameA : Game :=
  { players :=
      [{ name := "A", starting_stack := 100, stack := 80, bets := [(1, 20)],
         actions := [(1, "bet")], went_negative_override := false },
       { name := "B", starting_stack := 100, stack := 80, bets := [(1, 20)],
         actions := [(1, "call")], went_negative_override := false }]
    dealer := "A"
    big_blind := "B"
    small_blind := "A"
    base_unit := 1
    chip_denoms := [1, 5, 25, 100]
    pot := 40
    round := 2
    history :=
      [{ round := 1, player := "A", action := "bet", amount := 20, pot_after := 20 },
       { round := 1, player := "B", action := "call", amount := 20, pot_after := 40 }]
    winner := none
    net_results := [] }

/-- `gameA` after `set_winner "A")` succeeds. -/
def gameAWon : Game :=
  { gameA with winner := some "A", net_results := [("A", 20), ("B", -20)] }

/-- Example session net totals: A is owed 10, B owes 4, C owes 6. -/
def ntEx : List (String × Int) := [("A", 10), ("B", -4), ("C", -6)]

/-- Example session net totals with a player whose net is exactly zero. -/
def ntEx0 : List (String × Int) := [("A", 10), ("Z", 0), ("B", -10)]

/-- Example betting input worth 200 Bonusly (two 100-unit chips at base
unit 1), without confirmation. -/
def inpEx : RoundInput := { action := "bet", counts := [0, 0, 0, 2], confirm := false }

/-- The same bet with the confirmation prompt answered `y`. -/
def inpExConfirm : RoundInput := { action := "bet", counts := [0, 0, 0, 2], confirm := true }

/-- A small call worth 20 Bonusly. -/
def inpCall : RoundInput := { action := "call", counts := [20], confirm := false }

/-- A fresh two-player game for exercising round recording. -/
def gameFresh : Game :=
  Game.init [Player.init "A" 100, Player.init "B" 100] "A" "B" "A" 1 [1, 5, 25, 100]

/-- A one-round script in which both players put 20 into the pot. -/
def scriptsEx : List (List RoundInput) :=
  [[{ action := "bet", counts := [20], confirm := false },
    { action := "call", counts := [20], confirm := false }]]

/-! Basic facts about the player ledger. -/

@[simp] theorem record_action_name (p : Player) (r : Nat) (a : String) (amt : Int) :
    (p.record_action r a amt).name = p.name := rfl

@[simp] theorem record_action_starting_stack (p : Player) (r : Nat) (a : String) (amt : Int) :
    (p.record_action r a amt).starting_stack = p.starting_stack := rfl

@[simp] theorem record_action_stack (p : Player) (r : Nat) (a : String) (amt : Int) :
    (p.record_action r a amt).stack = p.stack - amt := rfl

@[simp] theorem record_action_total_bet (p : Player) (r : Nat) (a : String) (amt : Int) :
    (p.record_action r a amt).total_bet = p.total_bet + amt := by
  simp [Player.record_action, Player.total_bet]

@[simp] theorem record_action_bets_length (p : Player) (r : Nat) (a : String) (amt : Int) :
    (p.record_action r a amt).bets.length = p.bets.length + 1 := by
  simp [Player.record_action]

@[simp] theorem record_action_actions_length (p : Player) (r : Nat) (a : String) (amt : Int) :
    (p.record_action r a amt).actions.length = p.actions.length + 1 := by
  simp [Player.record_action]

@[simp] theorem record_action_override (p : Player) (r : Nat) (a : String) (amt : Int) :
    (p.record_action r a amt).went_negative_override = p.went_negative_override := rfl

/-- Effect of a whole sequence of `record_action` calls on a player. -/
theorem foldl_record_action (calls : List (Nat × String × Int)) :
    ∀ p : Player,
      (calls.foldl (fun q c => q.record_action c.1 c.2.1 c.2.2) p).starting_stack
          = p.starting_stack
      ∧ (calls.foldl (fun q c => q.record_action c.1 c.2.1 c.2.2) p).stack
          = p.stack - (calls.map (fun c => c.2.2)).sum
      ∧ (calls.foldl (fun q c => q.record_action c.1 c.2.1 c.2.2) p).total_bet
          = p.total_bet + (calls.map (fun c => c.2.2)).sum
      ∧ (calls.foldl (fun q c => q.record_action c.1 c.2.1 c.2.2) p).bets.length
          = p.bets.length + calls.length
      ∧ (calls.foldl (fun q c => q.record_action c.1 c.2.1 c.2.2) p).actions.length
          = p.actions.length + calls.length := by
  induction calls with
  | nil => intro p; simp
  | cons c rest ih =>
    intro p
    have h := ih (p.record_action c.1 c.2.1 c.2.2)
    simp only [List.foldl_cons, List.map_cons, List.sum_cons, List.length_cons] at h ⊢
    refine ⟨?_, ?_, ?_, ?_, ?_⟩ <;> simp [h.1, h.2.1, h.2.2.1, h.2.2.2.1, h.2.2.2.2] <;> omega

/-- Claim C5: for every player and every sequence of `record_action`
calls with arbitrary integer amounts, at every point the current stack
equals the starting stack minus `total_bet`, and each call appends
exactly one entry to the bet log and one to the action log
(`record_action` is a total function with no error path). -/
theorem player_stack_invariant (name : String) (starting : Int)
    (calls : List (Nat × String × Int)) :
    (calls.foldl (fun q c => q.record_action c.1 c.2.1 c.2.2)
        (Player.init name starting)).stack
      = (calls.foldl (fun q c => q.record_action c.1 c.2.1 c.2.2)
          (Player.init name starting)).starting_stack
        - (calls.foldl (fun q c => q.record_action c.1 c.2.1 c.2.2)
            (Player.init name starting)).total_bet
    ∧ (calls.foldl (fun q c => q.record_action c.1 c.2.1 c.2.2)
        (Player.init name starting)).bets.length = calls.length
    ∧ (calls.foldl (fun q c => q.record_action c.1 c.2.1 c.2.2)
        (Player.init name starting)).actions.length = calls.length := by
  obtain ⟨h1, h2, h3, h4, h5⟩ := foldl_record_action calls (Player.init name starting)
  simp only [Player.init, Player.total_bet, List.map_nil, List.sum_nil,
    List.length_nil] at h1 h2 h3 h4 h5 ⊢
  exact ⟨by omega, by omega, by omega⟩

/-! List helpers for in-place updates of the player list. -/

theorem map_set_same {α β : Type} (f : α → β) :
    ∀ (l : List α) (i : Nat) (a b : α), l[i]? = some a → f b = f a →
      (l.set i b).map f = l.map f := by
  intro l
  induction l with
  | nil => intro i a b h _; simp at h
  | cons x xs ih =>
    intro i a b h hf
    cases i with
    | zero =>
      simp only [List.getElem?_cons_zero, Option.some.injEq] at h
      subst h
      simp [List.set, hf]
    | succ n =>
      simp only [List.getElem?_cons_succ] at h
      simp [List.set, ih n a b h hf]

theorem sum_map_set (f : Player → Int) :
    ∀ (l : List Player) (i : Nat) (a b : Player), l[i]? = some a →
      ((l.set i b).map f).sum = (l.map f).sum - f a + f b := by
  intro l
  induction l with
  | nil => intro i a b h; simp at h
  | cons x xs ih =>
    intro i a b h
    cases i with
    | zero =>
      simp only [List.getElem?_cons_zero, Option.some.injEq] at h
      subst h
      simp [List.set]
      ring
    | succ n =>
      simp only [List.getElem?_cons_succ] at h
      rw [show (x :: xs).set (n + 1) b = x :: xs.set n b from rfl]
      simp only [List.map_cons, List.sum_cons, ih n a b h]
      ring

theorem getElem?_set_same {α : Type} :
    ∀ (l : List α) (i : Nat) (a b : α), l[i]? = some a →
      (l.set i b)[i]? = some b := by
  intro l
  induction l with
  | nil => intro i a b h; simp at h
  | cons x xs ih =>
    intro i a b h
    cases i with
    | zero => simp [List.set]
    | succ n =>
      simp only [List.getElem?_cons_succ] at h
      simp [List.set, ih n a b h]

/-! The conditional override update of `record_round` does not touch any
other player field. -/

@[simp] theorem overrideUpdate_name (p : Player) (c : Prop) [Decidable c] :
    (if c then { p with went_negative_override := true } else p).name = p.name := by
  split <;> rfl

@[simp] theorem overrideUpdate_total_bet (p : Player) (c : Prop) [Decidable c] :
    (if c then { p with went_negative_override := true } else p).total_bet
      = p.total_bet := by
  split <;> rfl

@[simp] theorem overrideUpdate_starting_stack (p : Player) (c : Prop) [Decidable c] :
    (if c then { p with went_negative_override := true } else p).starting_stack
      = p.starting_stack := by
  split <;> rfl

/-! Preservation of the ledger invariants by round recording. -/

theorem commitInput_names (g : Game) (i r : Nat) (inp : RoundInput) :
    (g.commitInput i r inp).players.map Player.name = g.players.map Player.name := by
  cases hp : g.players[i]? with
  | none => simp [Game.commitInput, hp]
  | some p =>
    simp only [Game.commitInput, hp]
    exact map_set_same Player.name g.players i p _ hp (by simp)

theorem commitInput_potBet (g : Game) (i r : Nat) (inp : RoundInput)
    (h : g.pot = (g.players.map Player.total_bet).sum) :
    (g.commitInput i r inp).pot
      = ((g.commitInput i r inp).players.map Player.total_bet).sum := by
  cases hp : g.players[i]? with
  | none => simpa [Game.commitInput, hp] using h
  | some p =>
    simp only [Game.commitInput, hp]
    rw [sum_map_set Player.total_bet g.players i p _ hp]
    simp [h]
    ring

theorem commitInput_potHist (g : Game) (i r : Nat) (inp : RoundInput)
    (h : g.pot = (g.history.map HistoryEntry.amount).sum) :
    (g.commitInput i r inp).pot
      = ((g.commitInput i r inp).history.map HistoryEntry.amount).sum := by
  cases hp : g.players[i]? with
  | none => simpa [Game.commitInput, hp] using h
  | some p => simp [Game.commitInput, hp, h]

theorem commitInputs_names (inputs : List RoundInput) :
    ∀ (g : Game) (i r : Nat),
      (g.commitInputs i r inputs).players.map Player.name
        = g.players.map Player.name := by
  induction inputs with
  | nil => intro g i r; rfl
  | cons inp rest ih =>
    intro g i r
    simp only [Game.commitInputs]
    rw [ih, commitInput_names]

theorem commitInputs_potBet (inputs : List RoundInput) :
    ∀ (g : Game) (i r : Nat),
      g.pot = (g.players.map Player.total_bet).sum →
      (g.commitInputs i r inputs).pot
        = ((g.commitInputs i r inputs).players.map Player.total_bet).sum := by
  induction inputs with
  | nil => intro g i r h; exact h
  | cons inp rest ih =>
    intro g i r h
    simp only [Game.commitInputs]
    exact ih _ _ _ (commitInput_potBet g i r inp h)

theorem commitInputs_potHist (inputs : List RoundInput) :
    ∀ (g : Game) (i r : Nat),
      g.pot = (g.history.map HistoryEntry.amount).sum →
      (g.commitInputs i r inputs).pot
        = ((g.commitInputs i r inputs).history.map HistoryEntry.amount).sum := by
  induction inputs with
  | nil => intro g i r h; exact h
  | cons inp rest ih =>
    intro g i r h
    simp only [Game.commitInputs]
    exact ih _ _ _ (commitInput_potHist g i r inp h)

theorem recordRoundFrom_names (g : Game) (inputs : List RoundInput) :
    (g.recordRoundFrom inputs).players.map Player.name
      = g.players.map Player.name := by
  simp only [Game.recordRoundFrom]
  exact commitInputs_names inputs g 0 g.round

theorem recordRoundFrom_potBet (g : Game) (inputs : List RoundInput)
    (h : g.pot = (g.players.map Player.total_bet).sum) :
    (g.recordRoundFrom inputs).pot
      = ((g.recordRoundFrom inputs).players.map Player.total_bet).sum := by
  simp only [Game.recordRoundFrom]
  exact commitInputs_potBet inputs g 0 g.round h

theorem recordRoundFrom_potHist (g : Game) (inputs : List RoundInput)
    (h : g.pot = (g.history.map HistoryEntry.amount).sum) :
    (g.recordRoundFrom inputs).pot
      = ((g.recordRoundFrom inputs).history.map HistoryEntry.amount).sum := by
  simp only [Game.recordRoundFrom]
  exact commitInputs_potHist inputs g 0 g.round h

theorem playRounds_names (scripts : List (List RoundInput)) :
    ∀ g : Game, (g.playRounds scripts).players.map Player.name
      = g.players.map Player.name := by
  induction scripts with
  | nil => intro g; rfl
  | cons s rest ih =>
    intro g
    simp only [Game.playRounds, List.foldl_cons] at ih ⊢
    rw [ih, recordRoundFrom_names]

theorem playRounds_potBet (scripts : List (List RoundInput)) :
    ∀ g : Game, g.pot = (g.players.map Player.total_bet).sum →
      (g.playRounds scripts).pot
        = ((g.playRounds scripts).players.map Player.total_bet).sum := by
  induction scripts with
  | nil => intro g h; exact h
  | cons s rest ih =>
    intro g h
    simp only [Game.playRounds, List.foldl_cons] at ih ⊢
    exact ih _ (recordRoundFrom_potBet g s h)

theorem playRounds_potHist (scripts : List (List RoundInput)) :
    ∀ g : Game, g.pot = (g.history.map HistoryEntry.amount).sum →
      (g.playRounds scripts).pot
        = ((g.playRounds scripts).history.map HistoryEntry.amount).sum := by
  induction scripts with
  | nil => intro g h; exact h
  | cons s rest ih =>
    intro g h
    simp only [Game.playRounds, List.foldl_cons] at ih ⊢
    exact ih _ (recordRoundFrom_potHist g s h)

/-! Facts about the net-results dict built by `set_winner`. -/

theorem dictSet_not_mem (d : List (String × Int)) (k : String) (v : Int)
    (h : k ∉ d.map Prod.fst) : dictSet d k v = d ++ [(k, v)] := by
  simp [dictSet, h]

theorem foldl_dictSet_eq_map (f : Player → Int) :
    ∀ (players : List Player) (start : List (String × Int)),
      (players.map Player.name).Nodup →
      (∀ p ∈ players, p.name ∉ start.map Prod.fst) →
      players.foldl (fun d p => dictSet d p.name (f p)) start
        = start ++ players.map (fun p => (p.name, f p)) := by
  intro players
  induction players with
  | nil => intro start _ _; simp
  | cons p rest ih =>
    intro start hnd hdisj
    rw [List.map_cons] at hnd
    have hnd2 := List.nodup_cons.mp hnd
    simp only [List.foldl_cons, List.map_cons]
    rw [dictSet_not_mem start p.name (f p) (hdisj p (List.mem_cons_self p rest))]
    rw [ih (start ++ [(p.name, f p)]) hnd2.2]
    · simp
    · intro q hq
      simp only [List.map_append, List.mem_append]
      push_neg
      refine ⟨hdisj q (List.mem_cons_of_mem p hq), ?_⟩
      have hqname : q.name ∈ rest.map Player.name := List.mem_map_of_mem Player.name hq
      simp only [List.map_cons, List.mem_cons]
      intro hc
      rcases hc with hc | hc
      · exact hnd2.1 (hc ▸ hqname)
      · simp at hc

theorem dictGet_map_name (f : Player → Int) :
    ∀ (players : List Player) (p : Player), (players.map Player.name).Nodup →
      p ∈ players →
      dictGet (players.map (fun q => (q.name, f q))) p.name = some (f p) := by
  intro players
  induction players with
  | nil => intro p _ h; simp at h
  | cons q rest ih =>
    intro p hnd hp
    simp only [List.map_cons, List.nodup_cons] at hnd ⊢
    rcases List.mem_cons.mp hp with h | h
    · subst h
      simp [dictGet, List.find?_cons]
    · have hq : (q.name == p.name) = false := by
        have hpm : p.name ∈ rest.map Player.name := List.mem_map_of_mem Player.name h
        simp only [beq_eq_false_iff_ne, ne_eq]
        intro hc
        exact hnd.1 (hc ▸ hpm)
      have := ih p hnd.2 h
      simpa [dictGet, List.find?_cons, hq] using this

theorem sum_net_of_not_mem (pot : Int) (w : String) :
    ∀ players : List Player, w ∉ players.map Player.name →
      (players.map (fun p => if p.name = w then -p.total_bet + pot
        else -p.total_bet)).sum = -((players.map Player.total_bet).sum) := by
  intro players
  induction players with
  | nil => intro _; simp
  | cons q rest ih =>
    intro hw
    simp only [List.map_cons, List.mem_cons, not_or] at hw
    have hq : ¬(q.name = w) := fun hc => hw.1 hc.symm
    simp only [List.map_cons, List.sum_cons, if_neg hq, ih hw.2]
    ring

theorem sum_net_of_mem (pot : Int) (w : String) :
    ∀ players : List Player, (players.map Player.name).Nodup →
      w ∈ players.map Player.name →
      (players.map (fun p => if p.name = w then -p.total_bet + pot
        else -p.total_bet)).sum = pot - (players.map Player.total_bet).sum := by
  intro players
  induction players with
  | nil => intro _ h; simp at h
  | cons q rest ih =>
    intro hnd hw
    simp only [List.map_cons, List.nodup_cons] at hnd
    by_cases hq : q.name = w
    · have hrest : w ∉ rest.map Player.name := hq ▸ hnd.1
      simp only [List.map_cons, List.sum_cons, if_pos hq,
        sum_net_of_not_mem pot w rest hrest]
      ring
    · have hrest : w ∈ rest.map Player.name := by
        rw [List.map_cons] at hw
        rcases List.mem_cons.mp hw with h | h
        · exact absurd h.symm hq
        · exact h
      simp only [List.map_cons, List.sum_cons, if_neg hq, ih hnd.2 hrest]
      ring

/-- On a known player, `set_winner` returns the updated game explicitly. -/
theorem set_winner_of_mem (g : Game) (w : String)
    (hw : w ∈ g.players.map Player.name) :
    g.set_winner w = Except.ok
      { g with
        winner := some w
        net_results :=
          g.players.foldl
            (fun d p =>
              dictSet d p.name
                (if p.name = w then -p.total_bet + g.pot else -p.total_bet)) [] } := by
  simp only [Game.set_winner, if_neg (not_not_intro hw)]

/-- Claim C6: `set_winner` on a name that is not among the game's players
fails with the unknown-player error.  The embedding is pure, so the error
result carries no game at all: `winner`, `net_results`, `pot`, `history`
and every player ledger of the original game are untouched. -/
theorem set_winner_unknown_player (g : Game) (w : String)
    (hw : w ∉ g.players.map Player.name) :
    g.set_winner w = Except.error ("Unknown winner name: " ++ w) := by
  simp [Game.set_winner, hw]

/-- Claim C6 witness: `set_winner "Carol")` on the two-player example game
fails and produces no successor state. -/
theorem set_winner_unknown_player_witness :
    gameA.set_winner "Carol" = Except.error ("Unknown winner name: " ++ "Carol") :=
  set_winner_unknown_player gameA "Carol" (by decide)

/-- Claim C1: whenever `set_winner` succeeds (under the data-model
assumption that player names are unique within a game), the resulting
game stores the winner name, and its net-results dict maps every player
to `-total_bet`, with the pot added for the declared winner only. -/
theorem set_winner_success_spec (g : Game) (w : String) (g2 : Game)
    (hnd : (g.players.map Player.name).Nodup)
    (hok : g.set_winner w = Except.ok g2) :
    g2.winner = some w
    ∧ ∀ p ∈ g.players, dictGet g2.net_results p.name
        = some (if p.name = w then g.pot - p.total_bet else -p.total_bet) := by
  by_cases hw : w ∈ g.players.map Player.name
  · rw [set_winner_of_mem g w hw] at hok
    injection hok with hok
    subst hok
    constructor
    · rfl
    · intro p hp
      have hfold := foldl_dictSet_eq_map
        (fun p => if p.name = w then -p.total_bet + g.pot else -p.total_bet)
        g.players [] hnd (by simp)
      simp only [List.nil_append] at hfold
      simp only [hfold]
      rw [dictGet_map_name _ g.players p hnd hp]
      by_cases hpw : p.name = w
      · simp only [if_pos hpw, Option.some.injEq]
        ring
      · simp only [if_neg hpw]
  · rw [set_winner_unknown_player g w hw] at hok
    exact absurd hok (by simp)

/-- Claim C1 witness: in the two-player example game with a 40-point pot,
`set_winner "A")` stores winner A and nets A `+20`, B `-20`. -/
theorem set_winner_success_spec_witness :
    gameAWon.winner = some "A"
    ∧ ∀ p ∈ gameA.players, dictGet gameAWon.net_results p.name
        = some (if p.name = "A" then gameA.pot - p.total_bet else -p.total_bet) :=
  set_winner_success_spec gameA "A" gameAWon (by decide) rfl

/-- Fresh players built from setup configs carry the config names. -/
theorem configPlayers_names (configs : List (String × Int)) :
    (configs.map (fun c => Player.init c.1 c.2)).map Player.name
      = configs.map Prod.fst := by
  simp [List.map_map, Player.init, Function.comp]

/-- Fresh players have not bet anything yet. -/
theorem configPlayers_total_bet (configs : List (String × Int)) :
    ((configs.map (fun c => Player.init c.1 c.2)).map Player.total_bet).sum = 0 := by
  apply List.sum_eq_zero
  intro x hx
  simp only [List.map_map, List.mem_map, Function.comp] at hx
  obtain ⟨c, _, hc⟩ := hx
  simp [Player.init, Player.total_bet] at hc
  omega

/-- Claim C3: from a fresh game over uniquely named players, after any
sequence of recorded rounds, a successful `set_winner` call produces
net results whose values sum to exactly zero. -/
theorem net_results_sum_zero (configs : List (String × Int))
    (dealer big_blind small_blind : String) (base_unit : Nat)
    (chip_denoms : List Nat) (scripts : List (List RoundInput)) (w : String)
    (hnd : (configs.map Prod.fst).Nodup) (hw : w ∈ configs.map Prod.fst) :
    ∃ g2,
      ((Game.init (configs.map (fun c => Player.init c.1 c.2)) dealer big_blind
          small_blind base_unit chip_denoms).playRounds scripts).set_winner w
        = Except.ok g2
      ∧ (g2.net_results.map Prod.snd).sum = 0 := by
  set g0 : Game := Game.init (configs.map (fun c => Player.init c.1 c.2)) dealer
    big_blind small_blind base_unit chip_denoms with hg0
  have hnames : (g0.playRounds scripts).players.map Player.name
      = configs.map Prod.fst := by
    rw [playRounds_names]
    exact configPlayers_names configs
  have hinv : (g0.playRounds scripts).pot
      = ((g0.playRounds scripts).players.map Player.total_bet).sum := by
    apply playRounds_potBet
    show g0.pot = _
    rw [hg0]
    exact (configPlayers_total_bet configs).symm
  refine ⟨_, set_winner_of_mem (g0.playRounds scripts) w (by rw [hnames]; exact hw), ?_⟩
  have hfold := foldl_dictSet_eq_map
    (fun p => if p.name = w then -p.total_bet + (g0.playRounds scripts).pot
      else -p.total_bet)
    (g0.playRounds scripts).players [] (by rw [hnames]; exact hnd) (by simp)
  simp only [List.nil_append] at hfold
  simp only [hfold, List.map_map]
  have : (List.map (Prod.snd ∘ fun p =>
      (p.name, if p.name = w then -p.total_bet + (g0.playRounds scripts).pot
        else -p.total_bet)) (g0.playRounds scripts).players)
      = (g0.playRounds scripts).players.map
          (fun p => if p.name = w then -p.total_bet + (g0.playRounds scripts).pot
            else -p.total_bet) := by
    simp [Function.comp]
  rw [this, sum_net_of_mem _ w _ (by rw [hnames]; exact hnd) (by rw [hnames]; exact hw)]
  omega

/-- Claim C3 witness: the spec scenario (A and B each put 20 in, A wins)
yields net results summing to zero. -/
theorem net_results_sum_zero_witness :
    ∃ g2,
      ((Game.init ([("A", 100), ("B", 100)].map (fun c => Player.init c.1 c.2))
          "A" "B" "A" 1 [1, 5, 25, 100]).playRounds scriptsEx).set_winner "A"
        = Except.ok g2
      ∧ (g2.net_results.map Prod.snd).sum = 0 :=
  net_results_sum_zero [("A", 100), ("B", 100)] "A" "B" "A" 1 [1, 5, 25, 100]
    scriptsEx "A" (by decide) (by decide)

/-- Claim C4: the pot always equals the sum of the amounts in the history:
it does at a fresh game (pot 0, empty history), it does at every point of
every sequence of rounds (including mid-round, after any prefix of
committed turns), and each committed action extends the history by
entries whose amounts account exactly for the pot increment. -/
theorem pot_equals_history_sum (players : List Player)
    (dealer big_blind small_blind : String) (base_unit : Nat)
    (chip_denoms : List Nat) (scripts : List (List RoundInput))
    (inputs : List RoundInput) (i round_no : Nat) :
    ((((Game.init players dealer big_blind small_blind base_unit
          chip_denoms).playRounds scripts).commitInputs i round_no inputs).pot
      = (((((Game.init players dealer big_blind small_blind base_unit
          chip_denoms).playRounds scripts).commitInputs i round_no
            inputs).history.map HistoryEntry.amount)).sum)
    ∧ (Game.init players dealer big_blind small_blind base_unit chip_denoms).pot = 0
    ∧ (Game.init players dealer big_blind small_blind base_unit chip_denoms).history = []
    ∧ ∀ (g : Game) (j r : Nat) (inp : RoundInput),
        (g.commitInput j r inp).history.take g.history.length = g.history
        ∧ (g.commitInput j r inp).pot
            = g.pot + (((g.commitInput j r inp).history.drop
                g.history.length).map HistoryEntry.amount).sum := by
  refine ⟨?_, rfl, rfl, ?_⟩
  · apply commitInputs_potHist
    apply playRounds_potHist
    rfl
  · intro g j r inp
    cases hp : g.players[j]? with
    | none => simp [Game.commitInput, hp]
    | some p =>
      constructor
      · simp only [Game.commitInput, hp]
        exact List.take_left g.history _
      · simp only [Game.commitInput, hp]
        rw [List.drop_left g.history _]
        simp

/-- Integers below `2 ^ 53` lose no bits in the double conversion. -/
theorem floatDropBits_of_lt (n : Nat) (h : n < 2 ^ 53) : floatDropBits n = 0 := by
  have h0 : List.find? (fun e => decide (n < 2 ^ (53 + e)))
      (0 :: List.map Nat.succ (List.range 1103)) = some 0 := by
    apply List.find?_cons_of_pos
    simpa using h
  unfold floatDropBits
  rw [show (1104 : Nat) = 1103 + 1 from rfl, List.range_succ_eq_map, h0]
  rfl

/-- Integers below `2 ^ 53` convert to a double exactly. -/
theorem floatOfNat_of_lt (n : Nat) (h : n < 2 ^ 53) : floatOfNat n = n := by
  unfold floatOfNat
  rw [floatDropBits_of_lt n h]
  simp [Nat.mod_one]

set_option maxRecDepth 8192 in
/-- Claim C7 counterexample: at `min_stack = 2 ^ 60 + 200` the primary
condition of the claim holds (`(min_stack / 4) / 100 ≥ 1`), yet the
program's base unit is not `floor(floor(min_stack * 0.25) / 100)` read
in exact arithmetic: Python first rounds `min_stack` to the nearest
double, `2 ^ 60 + 256`, so the program computes
`(2 ^ 58 + 64) / 100`, one more than the exact `(2 ^ 58 + 50) / 100`. -/
theorem chip_mapping_claim_counterexample :
    0 < 2 ^ 60 + 200
    ∧ 1 ≤ (2 ^ 60 + 200) / 4 / 100
    ∧ ¬((setupChipMapping (2 ^ 60 + 200)).map Prod.fst
          = some ((2 ^ 60 + 200) / 4 / 100))
    ∧ (setupChipMapping (2 ^ 60 + 200)).map Prod.fst
        = some ((2 ^ 60 + 200) / 4 / 100 + 1) := by
  decide

/-- Claim C7 (amended): for every positive `min_stack` below `2 ^ 53` —
the range in which `float(min_stack)` is exact, so that
`int(min_stack * 0.25) = min_stack / 4` — the base unit is
`(min_stack / 4) / 100` when that is at least 1; otherwise — exactly
when `(min_stack / 4) / 100 < 1` — the fallback `max 1 (min_stack /
100)` is used; setup succeeds (no float overflow), the chosen base unit
is at least 1, and the denomination list is `[1, 5, 25, 100]`.  Beyond
`2 ^ 53` the double rounding of `min_stack * 0.25` can shift the result
(see the counterexample), and far larger stacks overflow the
conversion. -/
theorem chip_mapping_spec (min_stack : Nat) (hpos : 0 < min_stack)
    (hfloat : min_stack < 2 ^ 53) :
    (1 ≤ min_stack / 4 / 100 →
        setupChipMapping min_stack
          = some (min_stack / 4 / 100, [1, 5, 25, 100]))
    ∧ (min_stack / 4 / 100 < 1 →
        setupChipMapping min_stack
          = some (max 1 (min_stack / 100), [1, 5, 25, 100]))
    ∧ ∃ bu denoms, setupChipMapping min_stack = some (bu, denoms)
        ∧ 1 ≤ bu ∧ denoms = [1, 5, 25, 100] := by
  have hfl : floatOfNat min_stack = min_stack := floatOfNat_of_lt min_stack hfloat
  have hno : ¬ 2 ^ 1024 ≤ min_stack := by
    intro hc
    have hle : (2 : Nat) ^ 53 ≤ 2 ^ 1024 := Nat.pow_le_pow_right (by omega) (by omega)
    omega
  by_cases h : min_stack / 4 / 100 < 1
  · have hset : setupChipMapping min_stack
        = some (max 1 (min_stack / 100), [1, 5, 25, 100]) := by
      simp only [setupChipMapping, hfl, if_neg hno, if_pos h]
    rw [hset]
    exact ⟨fun hc => absurd hc (by omega), fun _ => rfl,
      max 1 (min_stack / 100), [1, 5, 25, 100], rfl, le_max_left 1 _, rfl⟩
  · have hset : setupChipMapping min_stack
        = some (min_stack / 4 / 100, [1, 5, 25, 100]) := by
      simp only [setupChipMapping, hfl, if_neg hno, if_neg h]
    rw [hset]
    exact ⟨fun _ => rfl, fun hc => absurd hc h,
      min_stack / 4 / 100, [1, 5, 25, 100], rfl, Nat.not_lt.mp h, rfl⟩

/-- Claim C7 witness: with a minimum stack of 1000 (well inside the
float-exact range) the primary mapping applies (`1000 / 4 / 100 = 2`),
setup succeeds with base unit at least 1, and the denominations are
`[1, 5, 25, 100]`. -/
theorem chip_mapping_spec_witness :
    (1 ≤ 1000 / 4 / 100 →
        setupChipMapping 1000 = some (1000 / 4 / 100, [1, 5, 25, 100]))
    ∧ (1000 / 4 / 100 < 1 →
        setupChipMapping 1000 = some (max 1 (1000 / 100), [1, 5, 25, 100]))
    ∧ ∃ bu denoms, setupChipMapping 1000 = some (bu, denoms)
        ∧ 1 ≤ bu ∧ denoms = [1, 5, 25, 100] :=
  chip_mapping_spec 1000 (by decide) (by decide)

/-- Claim C8: a betting-type action whose converted amount pushes the
projected total bet strictly over the starting stack is rejected without
any mutation unless confirmed (`tryPlayerAction` returns `none`, so no
ledger, pot, or history change exists for that attempt); with
confirmation it commits with the override flag latched to true; and when
the projection stays within the starting stack it commits immediately
with the player record otherwise untouched. -/
theorem soft_violation_gate (g : Game) (i round_no : Nat) (inp : RoundInput)
    (p : Player) (hp : g.players[i]? = some p)
    (hb : isBettingAction inp.action = true) :
    ((p.starting_stack < p.total_bet + g.inputAmount inp ∧ inp.confirm = false) →
        g.tryPlayerAction i round_no inp = none)
    ∧ ((p.starting_stack < p.total_bet + g.inputAmount inp ∧ inp.confirm = true) →
        g.tryPlayerAction i round_no inp = some (g.commitInput i round_no inp)
        ∧ (g.commitInput i round_no inp).players[i]?
            = some (({ p with went_negative_override := true }).record_action
                round_no inp.action (g.inputAmount inp)))
    ∧ (p.total_bet + g.inputAmount inp ≤ p.starting_stack →
        g.tryPlayerAction i round_no inp = some (g.commitInput i round_no inp)
        ∧ (g.commitInput i round_no inp).players[i]?
            = some (p.record_action round_no inp.action (g.inputAmount inp))) := by
  refine ⟨?_, ?_, ?_⟩
  · intro h
    simp only [Game.tryPlayerAction, hp]
    rw [if_pos ⟨hb, h.1, h.2⟩]
  · intro h
    constructor
    · simp only [Game.tryPlayerAction, hp]
      rw [if_neg]
      intro hc
      rw [h.2] at hc
      exact absurd hc.2.2 (by simp)
    · simp only [Game.commitInput, hp]
      rw [if_pos ⟨hb, h.1⟩]
      exact getElem?_set_same g.players i p _ hp
  · intro h
    constructor
    · simp only [Game.tryPlayerAction, hp]
      rw [if_neg]
      intro hc
      omega
    · simp only [Game.commitInput, hp]
      rw [if_neg]
      · exact getElem?_set_same g.players i p _ hp
      · intro hc
        omega

/-- Claim C8 witness: in a fresh two-player game (stacks 100, base unit
1), an unconfirmed bet of two 100-unit chips (200 Bonusly) is rejected
with no state produced, while a 20-point call would commit. -/
theorem soft_violation_gate_witness :
    (((Player.init "A" 100).starting_stack
          < (Player.init "A" 100).total_bet + gameFresh.inputAmount inpEx
        ∧ inpEx.confirm = false) →
        gameFresh.tryPlayerAction 0 1 inpEx = none)
    ∧ (((Player.init "A" 100).starting_stack
          < (Player.init "A" 100).total_bet + gameFresh.inputAmount inpEx
        ∧ inpEx.confirm = true) →
        gameFresh.tryPlayerAction 0 1 inpEx = some (gameFresh.commitInput 0 1 inpEx)
        ∧ (gameFresh.commitInput 0 1 inpEx).players[0]?
            = some (({ Player.init "A" 100 with
                went_negative_override := true }).record_action
                  1 inpEx.action (gameFresh.inputAmount inpEx)))
    ∧ ((Player.init "A" 100).total_bet + gameFresh.inputAmount inpEx
          ≤ (Player.init "A" 100).starting_stack →
        gameFresh.tryPlayerAction 0 1 inpEx = some (gameFresh.commitInput 0 1 inpEx)
        ∧ (gameFresh.commitInput 0 1 inpEx).players[0]?
            = some ((Player.init "A" 100).record_action
                1 inpEx.action (gameFresh.inputAmount inpEx))) :=
  soft_violation_gate gameFresh 0 1 inpEx (Player.init "A" 100) (by decide) (by decide)

/-! Facts about the greedy settlement sweep. -/

theorem sumMag_nonneg (l : List (String × Int)) (h : ∀ x ∈ l, 0 < x.2) :
    0 ≤ sumMag l := by
  apply List.sum_nonneg
  intro x hx
  simp only [List.mem_map] at hx
  obtain ⟨y, hy, rfl⟩ := hx
  exact le_of_lt (h y hy)

theorem eq_nil_of_sumMag_eq_zero (l : List (String × Int))
    (h : ∀ x ∈ l, 0 < x.2) (hz : sumMag l = 0) : l = [] := by
  cases l with
  | nil => rfl
  | cons x xs =>
    exfalso
    have hx := h x (List.mem_cons_self x xs)
    have hxs := sumMag_nonneg xs (fun y hy => h y (List.mem_cons_of_mem x hy))
    simp only [sumMag, List.map_cons, List.sum_cons] at hz hxs ⊢
    omega

theorem settleLoop_length : ∀ ds cs : List (String × Int),
    (settleLoop ds cs).length ≤ ds.length + cs.length := by
  intro ds cs
  induction ds, cs using settleLoop.induct with
  | case1 cs => simp [settleLoop]
  | case2 d ds => simp [settleLoop]
  | case3 dn da ds1 cn ca cs1 ih1 ih2 ih3 =>
    rw [settleLoop]
    by_cases h1 : da < ca
    · rw [if_pos h1]
      simp only [List.length_cons] at ih1 ⊢
      omega
    · by_cases h2 : ca < da
      · rw [if_neg h1, if_pos h2]
        simp only [List.length_cons] at ih2 ⊢
        omega
      · rw [if_neg h1, if_neg h2]
        simp only [List.length_cons]
        omega

theorem settleLoop_mem : ∀ ds cs : List (String × Int),
    (∀ x ∈ ds, 0 < x.2) → (∀ x ∈ cs, 0 < x.2) →
    ∀ s ∈ settleLoop ds cs,
      0 < s.amount ∧ s.from_ ∈ ds.map Prod.fst ∧ s.to_ ∈ cs.map Prod.fst := by
  intro ds cs
  induction ds, cs using settleLoop.induct with
  | case1 cs => intro _ _ s hs; simp [settleLoop] at hs
  | case2 d ds => intro _ _ s hs; simp [settleLoop] at hs
  | case3 dn da ds1 cn ca cs1 ih1 ih2 ih3 =>
    intro hd hc s hs
    rw [settleLoop] at hs
    have hda : 0 < da := hd (dn, da) (List.mem_cons_self _ _)
    have hca : 0 < ca := hc (cn, ca) (List.mem_cons_self _ _)
    have hdtail : ∀ x ∈ ds1, 0 < x.2 := fun x hx => hd x (List.mem_cons_of_mem _ hx)
    have hctail : ∀ x ∈ cs1, 0 < x.2 := fun x hx => hc x (List.mem_cons_of_mem _ hx)
    rcases List.mem_cons.mp hs with hhead | htail
    · subst hhead
      refine ⟨?_, ?_, ?_⟩
      · simp only []
        omega
      · simp
      · simp
    · by_cases h1 : da < ca
      · rw [if_pos h1] at htail
        have hnewc : ∀ x ∈ (cn, ca - da) :: cs1, 0 < x.2 := by
          intro x hx
          rcases List.mem_cons.mp hx with rfl | hx
          · simp only []; omega
          · exact hctail x hx
        obtain ⟨hpos, hf, ht⟩ := ih1 hdtail hnewc s htail
        refine ⟨hpos, ?_, ?_⟩
        · exact List.mem_cons_of_mem _ hf
        · simpa using ht
      · by_cases h2 : ca < da
        · rw [if_neg h1, if_pos h2] at htail
          have hnewd : ∀ x ∈ (dn, da - ca) :: ds1, 0 < x.2 := by
            intro x hx
            rcases List.mem_cons.mp hx with rfl | hx
            · simp only []; omega
            · exact hdtail x hx
          obtain ⟨hpos, hf, ht⟩ := ih2 hnewd hctail s htail
          refine ⟨hpos, ?_, ?_⟩
          · simpa using hf
          · exact List.mem_cons_of_mem _ ht
        · rw [if_neg h1, if_neg h2] at htail
          obtain ⟨hpos, hf, ht⟩ := ih3 hdtail hctail s htail
          exact ⟨hpos, List.mem_cons_of_mem _ hf, List.mem_cons_of_mem _ ht⟩

theorem settleLoop_paid_received : ∀ ds cs : List (String × Int),
    (∀ x ∈ ds, 0 < x.2) → (∀ x ∈ cs, 0 < x.2) → sumMag ds = sumMag cs →
    ∀ n, paidBy n (settleLoop ds cs) = sumFor n ds
      ∧ receivedBy n (settleLoop ds cs) = sumFor n cs := by
  intro ds cs
  induction ds, cs using settleLoop.induct with
  | case1 cs =>
    intro _ hc hs n
    have hnil : cs = [] := by
      apply eq_nil_of_sumMag_eq_zero cs hc
      simp only [sumMag, List.map_nil, List.sum_nil] at hs ⊢
      omega
    subst hnil
    simp [settleLoop, paidBy, receivedBy, sumFor]
  | case2 d ds =>
    intro hd _ hs _
    exfalso
    have hdpos := hd d (List.mem_cons_self _ _)
    have hrest := sumMag_nonneg ds (fun x hx => hd x (List.mem_cons_of_mem _ hx))
    simp only [sumMag, List.map_cons, List.sum_cons, List.map_nil,
      List.sum_nil] at hs hrest
    omega
  | case3 dn da ds1 cn ca cs1 ih1 ih2 ih3 =>
    intro hd hc hs n
    rw [settleLoop]
    have hda : 0 < da := hd (dn, da) (List.mem_cons_self _ _)
    have hca : 0 < ca := hc (cn, ca) (List.mem_cons_self _ _)
    have hdtail : ∀ x ∈ ds1, 0 < x.2 := fun x hx => hd x (List.mem_cons_of_mem _ hx)
    have hctail : ∀ x ∈ cs1, 0 < x.2 := fun x hx => hc x (List.mem_cons_of_mem _ hx)
    have hsum : da + sumMag ds1 = ca + sumMag cs1 := by
      simpa [sumMag] using hs
    by_cases h1 : da < ca
    · rw [if_pos h1]
      have hmin : min da ca = da := min_eq_left (le_of_lt h1)
      have hnewc : ∀ x ∈ (cn, ca - da) :: cs1, 0 < x.2 := by
        intro x hx
        rcases List.mem_cons.mp hx with rfl | hx
        · simp only []; omega
        · exact hctail x hx
      have hnews : sumMag ds1 = sumMag ((cn, ca - da) :: cs1) := by
        simp only [sumMag, List.map_cons, List.sum_cons]
        simp only [sumMag] at hsum
        omega
      obtain ⟨hpaid, hrecv⟩ := ih1 hdtail hnewc hnews n
      simp only [sumFor] at hrecv
      constructor
      · simp only [paidBy, hpaid, sumFor, hmin]
      · simp only [receivedBy, hrecv, sumFor, hmin]
        split_ifs <;> omega
    · by_cases h2 : ca < da
      · rw [if_neg h1, if_pos h2]
        have hmin : min da ca = ca := min_eq_right (le_of_lt h2)
        have hnewd : ∀ x ∈ (dn, da - ca) :: ds1, 0 < x.2 := by
          intro x hx
          rcases List.mem_cons.mp hx with rfl | hx
          · simp only []; omega
          · exact hdtail x hx
        have hnews : sumMag ((dn, da - ca) :: ds1) = sumMag cs1 := by
          simp only [sumMag, List.map_cons, List.sum_cons]
          simp only [sumMag] at hsum
          omega
        obtain ⟨hpaid, hrecv⟩ := ih2 hnewd hctail hnews n
        simp only [sumFor] at hpaid
        constructor
        · simp only [paidBy, hpaid, sumFor, hmin]
          split_ifs <;> omega
        · simp only [receivedBy, hrecv, sumFor, hmin]
      · have heq : da = ca := by omega
        rw [if_neg h1, if_neg h2]
        have hnews : sumMag ds1 = sumMag cs1 := by
          simp only [sumMag] at hsum ⊢
          omega
        obtain ⟨hpaid, hrecv⟩ := ih3 hdtail hctail hnews n
        have hmin : min da ca = da := by omega
        constructor
        · simp only [paidBy, hpaid, sumFor, hmin]
        · simp only [receivedBy, hrecv, sumFor, heq, min_self]

theorem settleLoop_total : ∀ ds cs : List (String × Int),
    (∀ x ∈ ds, 0 < x.2) → (∀ x ∈ cs, 0 < x.2) → sumMag ds = sumMag cs →
    ((settleLoop ds cs).map Settlement.amount).sum = sumMag ds := by
  intro ds cs
  induction ds, cs using settleLoop.induct with
  | case1 cs => intro _ _ _; simp [settleLoop, sumMag]
  | case2 d ds =>
    intro hd _ hs
    exfalso
    have hdpos := hd d (List.mem_cons_self _ _)
    have hrest := sumMag_nonneg ds (fun x hx => hd x (List.mem_cons_of_mem _ hx))
    simp only [sumMag, List.map_cons, List.sum_cons, List.map_nil,
      List.sum_nil] at hs hrest
    omega
  | case3 dn da ds1 cn ca cs1 ih1 ih2 ih3 =>
    intro hd hc hs
    rw [settleLoop]
    have hda : 0 < da := hd (dn, da) (List.mem_cons_self _ _)
    have hca : 0 < ca := hc (cn, ca) (List.mem_cons_self _ _)
    have hdtail : ∀ x ∈ ds1, 0 < x.2 := fun x hx => hd x (List.mem_cons_of_mem _ hx)
    have hctail : ∀ x ∈ cs1, 0 < x.2 := fun x hx => hc x (List.mem_cons_of_mem _ hx)
    have hsum : da + sumMag ds1 = ca + sumMag cs1 := by
      simpa [sumMag] using hs
    simp only [List.map_cons, List.sum_cons, sumMag]
    by_cases h1 : da < ca
    · rw [if_pos h1]
      have hnewc : ∀ x ∈ (cn, ca - da) :: cs1, 0 < x.2 := by
        intro x hx
        rcases List.mem_cons.mp hx with rfl | hx
        · simp only []; omega
        · exact hctail x hx
      have hnews : sumMag ds1 = sumMag ((cn, ca - da) :: cs1) := by
        simp only [sumMag, List.map_cons, List.sum_cons]
        simp only [sumMag] at hsum
        omega
      have := ih1 hdtail hnewc hnews
      simp only [sumMag] at this
      rw [this]
      omega
    · by_cases h2 : ca < da
      · rw [if_neg h1, if_pos h2]
        have hnewd : ∀ x ∈ (dn, da - ca) :: ds1, 0 < x.2 := by
          intro x hx
          rcases List.mem_cons.mp hx with rfl | hx
          · simp only []; omega
          · exact hdtail x hx
        have hnews : sumMag ((dn, da - ca) :: ds1) = sumMag cs1 := by
          simp only [sumMag, List.map_cons, List.sum_cons]
          simp only [sumMag] at hsum
          omega
        have := ih2 hnewd hctail hnews
        simp only [sumMag, List.map_cons, List.sum_cons] at this
        rw [this]
        omega
      · rw [if_neg h1, if_neg h2]
        have hnews : sumMag ds1 = sumMag cs1 := by
          simp only [sumMag] at hsum ⊢
          omega
        have := ih3 hdtail hctail hnews
        simp only [sumMag] at this
        rw [this]
        omega

theorem debtorsOf_cons (x : String × Int) (l : List (String × Int)) :
    debtorsOf (x :: l)
      = if x.2 < 0 then (x.1, -x.2) :: debtorsOf l else debtorsOf l := by
  by_cases h : x.2 < 0
  · simp [debtorsOf, List.filterMap_cons, h]
  · simp [debtorsOf, List.filterMap_cons, h]

theorem creditorsOf_cons (x : String × Int) (l : List (String × Int)) :
    creditorsOf (x :: l)
      = if 0 < x.2 then x :: creditorsOf l else creditorsOf l := by
  by_cases h : 0 < x.2
  · simp [creditorsOf, List.filterMap_cons, h]
  · simp [creditorsOf, List.filterMap_cons, h]

theorem debtorsOf_pos (nt : List (String × Int)) :
    ∀ x ∈ debtorsOf nt, 0 < x.2 := by
  induction nt with
  | nil => intro x hx; cases hx
  | cons y l ih =>
    intro x hx
    rw [debtorsOf_cons] at hx
    by_cases h : y.2 < 0
    · rw [if_pos h] at hx
      rcases List.mem_cons.mp hx with rfl | hx
      · simp only []
        omega
      · exact ih x hx
    · rw [if_neg h] at hx
      exact ih x hx

theorem creditorsOf_pos (nt : List (String × Int)) :
    ∀ x ∈ creditorsOf nt, 0 < x.2 := by
  induction nt with
  | nil => intro x hx; cases hx
  | cons y l ih =>
    intro x hx
    rw [creditorsOf_cons] at hx
    by_cases h : 0 < y.2
    · rw [if_pos h] at hx
      rcases List.mem_cons.mp hx with rfl | hx
      · exact h
      · exact ih x hx
    · rw [if_neg h] at hx
      exact ih x hx

theorem sumMag_debtors_creditors (nt : List (String × Int)) :
    sumMag (creditorsOf nt) - sumMag (debtorsOf nt) = (nt.map Prod.snd).sum := by
  induction nt with
  | nil => simp [debtorsOf, creditorsOf, sumMag]
  | cons x l ih =>
    rw [debtorsOf_cons, creditorsOf_cons]
    by_cases h1 : x.2 < 0
    · have h2 : ¬ 0 < x.2 := by omega
      rw [if_pos h1, if_neg h2]
      simp only [sumMag, List.map_cons, List.sum_cons]
      simp only [sumMag] at ih
      omega
    · by_cases h2 : 0 < x.2
      · rw [if_neg h1, if_pos h2]
        simp only [sumMag, List.map_cons, List.sum_cons]
        simp only [sumMag] at ih
        omega
      · rw [if_neg h1, if_neg h2]
        simp only [List.map_cons, List.sum_cons]
        have h0 : x.2 = 0 := by omega
        omega

theorem mem_debtors_names (nt : List (String × Int)) (n : String)
    (h : n ∈ (debtorsOf nt).map Prod.fst) : ∃ v, (n, v) ∈ nt ∧ v < 0 := by
  induction nt with
  | nil => cases h
  | cons y l ih =>
    rw [debtorsOf_cons] at h
    by_cases hy : y.2 < 0
    · rw [if_pos hy, List.map_cons] at h
      rcases List.mem_cons.mp h with hh | hh
      · refine ⟨y.2, ?_, hy⟩
        have hny : n = y.1 := hh
        rw [hny, Prod.mk.eta]
        exact List.mem_cons_self y l
      · obtain ⟨v, hv, hvneg⟩ := ih hh
        exact ⟨v, List.mem_cons_of_mem y hv, hvneg⟩
    · rw [if_neg hy] at h
      obtain ⟨v, hv, hvneg⟩ := ih h
      exact ⟨v, List.mem_cons_of_mem y hv, hvneg⟩

theorem mem_creditors_names (nt : List (String × Int)) (n : String)
    (h : n ∈ (creditorsOf nt).map Prod.fst) : ∃ v, (n, v) ∈ nt ∧ 0 < v := by
  induction nt with
  | nil => cases h
  | cons y l ih =>
    rw [creditorsOf_cons] at h
    by_cases hy : 0 < y.2
    · rw [if_pos hy, List.map_cons] at h
      rcases List.mem_cons.mp h with hh | hh
      · refine ⟨y.2, ?_, hy⟩
        have hny : n = y.1 := hh
        rw [hny, Prod.mk.eta]
        exact List.mem_cons_self y l
      · obtain ⟨v, hv, hvpos⟩ := ih hh
        exact ⟨v, List.mem_cons_of_mem y hv, hvpos⟩
    · rw [if_neg hy] at h
      obtain ⟨v, hv, hvpos⟩ := ih h
      exact ⟨v, List.mem_cons_of_mem y hv, hvpos⟩

/-- With no duplicate keys, a key determines its value in the mapping. -/
theorem mem_value_unique (nt : List (String × Int))
    (hnd : (nt.map Prod.fst).Nodup) {n : String} {v v2 : Int}
    (h1 : (n, v) ∈ nt) (h2 : (n, v2) ∈ nt) : v = v2 := by
  induction nt with
  | nil => cases h1
  | cons x l ih =>
    rw [List.map_cons] at hnd
    have hnd2 := List.nodup_cons.mp hnd
    rcases List.mem_cons.mp h1 with hx1 | hx1 <;>
      rcases List.mem_cons.mp h2 with hx2 | hx2
    · have heads : (n, v) = ((n, v2) : String × Int) := hx1.trans hx2.symm
      exact congrArg Prod.snd heads
    · exfalso
      apply hnd2.1
      have hx1n : x.1 = n := by rw [← hx1]
      rw [hx1n]
      exact List.mem_map_of_mem Prod.fst hx2
    · exfalso
      apply hnd2.1
      have hx2n : x.1 = n := by rw [← hx2]
      rw [hx2n]
      exact List.mem_map_of_mem Prod.fst hx1
    · exact ih hnd2.2 hx1 hx2

theorem sumFor_debtors_of_not_mem (n : String) :
    ∀ nt : List (String × Int), n ∉ nt.map Prod.fst →
      sumFor n (debtorsOf nt) = 0 := by
  intro nt
  induction nt with
  | nil => intro _; rfl
  | cons x l ih =>
    intro h
    simp only [List.map_cons, List.mem_cons, not_or] at h
    rw [debtorsOf_cons]
    by_cases hneg : x.2 < 0
    · rw [if_pos hneg]
      simp only [sumFor, if_neg (fun hc : x.1 = n => h.1 hc.symm)]
      rw [ih h.2]
      omega
    · rw [if_neg hneg]
      exact ih h.2

theorem sumFor_creditors_of_not_mem (n : String) :
    ∀ nt : List (String × Int), n ∉ nt.map Prod.fst →
      sumFor n (creditorsOf nt) = 0 := by
  intro nt
  induction nt with
  | nil => intro _; rfl
  | cons x l ih =>
    intro h
    simp only [List.map_cons, List.mem_cons, not_or] at h
    rw [creditorsOf_cons]
    by_cases hpos : 0 < x.2
    · rw [if_pos hpos]
      simp only [sumFor, if_neg (fun hc : x.1 = n => h.1 hc.symm)]
      rw [ih h.2]
      omega
    · rw [if_neg hpos]
      exact ih h.2

theorem sumFor_debtorsOf (n : String) (v : Int) :
    ∀ nt : List (String × Int), (n, v) ∈ nt → (nt.map Prod.fst).Nodup →
      sumFor n (debtorsOf nt) = if v < 0 then -v else 0 := by
  intro nt
  induction nt with
  | nil => intro h _; cases h
  | cons x l ih =>
    intro hmem hnd
    rw [List.map_cons] at hnd
    have hnd2 := List.nodup_cons.mp hnd
    rw [debtorsOf_cons]
    rcases List.mem_cons.mp hmem with hx | hx
    · have hx1 : x.1 = n := by rw [← hx]
      have hx2 : x.2 = v := by rw [← hx]
      have hnotin : n ∉ l.map Prod.fst := hx1 ▸ hnd2.1
      have hz := sumFor_debtors_of_not_mem n l hnotin
      by_cases hneg : x.2 < 0
      · rw [if_pos hneg]
        simp only [sumFor, if_pos hx1, hz]
        rw [if_pos (hx2 ▸ hneg)]
        omega
      · rw [if_neg hneg, hz, if_neg (hx2 ▸ hneg)]
    · have hx1 : ¬(x.1 = n) := fun hc =>
        hnd2.1 (hc ▸ List.mem_map_of_mem Prod.fst hx)
      by_cases hneg : x.2 < 0
      · rw [if_pos hneg]
        simp only [sumFor, if_neg hx1]
        rw [ih hx hnd2.2]
        omega
      · rw [if_neg hneg]
        exact ih hx hnd2.2

theorem sumFor_creditorsOf (n : String) (v : Int) :
    ∀ nt : List (String × Int), (n, v) ∈ nt → (nt.map Prod.fst).Nodup →
      sumFor n (creditorsOf nt) = if 0 < v then v else 0 := by
  intro nt
  induction nt with
  | nil => intro h _; cases h
  | cons x l ih =>
    intro hmem hnd
    rw [List.map_cons] at hnd
    have hnd2 := List.nodup_cons.mp hnd
    rw [creditorsOf_cons]
    rcases List.mem_cons.mp hmem with hx | hx
    · have hx1 : x.1 = n := by rw [← hx]
      have hx2 : x.2 = v := by rw [← hx]
      have hnotin : n ∉ l.map Prod.fst := hx1 ▸ hnd2.1
      have hz := sumFor_creditors_of_not_mem n l hnotin
      by_cases hpos : 0 < x.2
      · rw [if_pos hpos]
        simp only [sumFor, if_pos hx1, hz]
        rw [if_pos (hx2 ▸ hpos)]
        omega
      · rw [if_neg hpos, hz, if_neg (hx2 ▸ hpos)]
    · have hx1 : ¬(x.1 = n) := fun hc =>
        hnd2.1 (hc ▸ List.mem_map_of_mem Prod.fst hx)
      by_cases hpos : 0 < x.2
      · rw [if_pos hpos]
        simp only [sumFor, if_neg hx1]
        rw [ih hx hnd2.2]
        omega
      · rw [if_neg hpos]
        exact ih hx hnd2.2

/-- Applying a transfer list with pairwise distinct endpoints acts on
each balance entry by subtracting everything that name pays and adding
everything it receives. -/
theorem foldl_applySettlement (ss : List Settlement) :
    ∀ bal : List (String × Int), (∀ s ∈ ss, s.from_ ≠ s.to_) →
      ss.foldl applySettlement bal
        = bal.map (fun nv => (nv.1, nv.2 - paidBy nv.1 ss + receivedBy nv.1 ss)) := by
  induction ss with
  | nil =>
    intro bal _
    simp [paidBy, receivedBy]
  | cons s rest ih =>
    intro bal hft
    simp only [List.foldl_cons]
    rw [ih (applySettlement bal s) (fun t ht => hft t (List.mem_cons_of_mem s ht))]
    simp only [applySettlement, List.map_map]
    apply List.map_congr_left
    intro nv _
    have hst : s.from_ ≠ s.to_ := hft s (List.mem_cons_self s rest)
    simp only [Function.comp]
    by_cases hf : nv.1 = s.from_
    · have hnotto : ¬(s.to_ = nv.1) := fun hc => hst (hf ▸ hc.symm)
      simp only [if_pos hf, paidBy, receivedBy, if_pos hf.symm, if_neg hnotto]
      refine congrArg (Prod.mk nv.1) ?_
      omega
    · by_cases ht : nv.1 = s.to_
      · simp only [if_neg hf, if_pos ht, paidBy, receivedBy,
          if_neg (fun hc : s.from_ = nv.1 => hf hc.symm), if_pos ht.symm]
        refine congrArg (Prod.mk nv.1) ?_
        omega
      · simp only [if_neg hf, if_neg ht, paidBy, receivedBy,
          if_neg (fun hc : s.from_ = nv.1 => hf hc.symm),
          if_neg (fun hc : s.to_ = nv.1 => ht hc.symm)]
        refine congrArg (Prod.mk nv.1) ?_
        omega

/-- Claim C2: for every net-totals mapping (unique keys, values summing
to zero), applying the produced transfers in order — each amount
subtracted from the debtor's running balance and added to the
creditor's, the balances starting from the amounts still owed — drives
every player's running balance to exactly zero, and the sum of all
transfer amounts equals the total debtor magnitude. -/
theorem settlements_zero_out (nt : List (String × Int))
    (hnd : (nt.map Prod.fst).Nodup) (hz : (nt.map Prod.snd).sum = 0) :
    (∀ x ∈ runBalances nt (calculate_settlements nt), x.2 = 0)
    ∧ ((calculate_settlements nt).map Settlement.amount).sum
        = sumMag (debtorsOf nt) := by
  have hdpos := debtorsOf_pos nt
  have hcpos := creditorsOf_pos nt
  have hsums : sumMag (debtorsOf nt) = sumMag (creditorsOf nt) := by
    have h := sumMag_debtors_creditors nt
    omega
  have hft : ∀ s ∈ calculate_settlements nt, s.from_ ≠ s.to_ := by
    intro s hs heq
    obtain ⟨_, hf, ht⟩ := settleLoop_mem _ _ hdpos hcpos s hs
    obtain ⟨v1, hm1, hv1⟩ := mem_debtors_names nt s.from_ hf
    obtain ⟨v2, hm2, hv2⟩ := mem_creditors_names nt s.to_ ht
    have hv12 : v1 = v2 := mem_value_unique nt hnd (heq ▸ hm1) hm2
    omega
  constructor
  · intro x hx
    rw [runBalances, foldl_applySettlement _ _ hft] at hx
    obtain ⟨mv, hmv, hxe⟩ := List.mem_map.mp hx
    obtain ⟨nv, hnv, hmve⟩ := List.mem_map.mp hmv
    subst hxe
    subst hmve
    show -nv.2 - paidBy nv.1 (calculate_settlements nt)
        + receivedBy nv.1 (calculate_settlements nt) = 0
    obtain ⟨hpaid, hrecv⟩ := settleLoop_paid_received _ _ hdpos hcpos hsums nv.1
    have hpaid2 : paidBy nv.1 (calculate_settlements nt)
        = sumFor nv.1 (debtorsOf nt) := hpaid
    have hrecv2 : receivedBy nv.1 (calculate_settlements nt)
        = sumFor nv.1 (creditorsOf nt) := hrecv
    have hmem2 : (nv.1, nv.2) ∈ nt := by
      rw [Prod.mk.eta]
      exact hnv
    have hdval := sumFor_debtorsOf nv.1 nv.2 nt hmem2 hnd
    have hcval := sumFor_creditorsOf nv.1 nv.2 nt hmem2 hnd
    rw [hpaid2, hrecv2, hdval, hcval]
    split_ifs <;> omega
  · exact settleLoop_total _ _ hdpos hcpos hsums

/-- Claim C2 witness: with net totals A `+10`, B `-4`, C `-6`, the
produced transfers zero every running balance and move 10 points in
total. -/
theorem settlements_zero_out_witness :
    (∀ x ∈ runBalances ntEx (calculate_settlements ntEx), x.2 = 0)
    ∧ ((calculate_settlements ntEx).map Settlement.amount).sum
        = sumMag (debtorsOf ntEx) :=
  settlements_zero_out ntEx (by decide) (by decide)

/-- Claim C9: every transfer produced by the settlement engine has a
strictly positive amount, and no transfer names — as debtor or creditor
— a player whose net total in the input mapping is exactly zero. -/
theorem settlement_amounts_positive (nt : List (String × Int))
    (hnd : (nt.map Prod.fst).Nodup) :
    ∀ s ∈ calculate_settlements nt,
      0 < s.amount ∧ ∀ x ∈ nt, x.2 = 0 → s.from_ ≠ x.1 ∧ s.to_ ≠ x.1 := by
  intro s hs
  obtain ⟨hpos, hf, ht⟩ :=
    settleLoop_mem _ _ (debtorsOf_pos nt) (creditorsOf_pos nt) s hs
  refine ⟨hpos, ?_⟩
  intro x hx hx0
  constructor
  · intro heq
    obtain ⟨v, hm, hv⟩ := mem_debtors_names nt s.from_ hf
    have hxm : (x.1, (0 : Int)) ∈ nt := by
      rw [← hx0, Prod.mk.eta]
      exact hx
    have hv0 : v = 0 := mem_value_unique nt hnd (heq ▸ hm) hxm
    omega
  · intro heq
    obtain ⟨v, hm, hv⟩ := mem_creditors_names nt s.to_ ht
    have hxm : (x.1, (0 : Int)) ∈ nt := by
      rw [← hx0, Prod.mk.eta]
      exact hx
    have hv0 : v = 0 := mem_value_unique nt hnd (heq ▸ hm) hxm
    omega

/-- Claim C9 witness: with net totals A `+10`, Z `0`, B `-10`, the single
produced transfer B to A carries a positive amount and avoids the
zero-net player Z. -/
theorem settlement_amounts_positive_witness :
    0 < (Settlement.mk "B" "A" 10).amount
    ∧ ∀ x ∈ ntEx0, x.2 = 0 →
        (Settlement.mk "B" "A" 10).from_ ≠ x.1
        ∧ (Settlement.mk "B" "A" 10).to_ ≠ x.1 :=
  settlement_amounts_positive ntEx0 (by decide) (Settlement.mk "B" "A" 10)
    (by rw [show calculate_settlements ntEx0 = [Settlement.mk "B" "A" 10] from by
          rw [calculate_settlements,
            show debtorsOf ntEx0 = [("B", 10)] from by decide,
            show creditorsOf ntEx0 = [("A", 10)] from by decide,
            settleLoop]
          norm_num [settleLoop]]
        exact List.mem_cons_self _ _)

/-- Claim C10: the greedy sweep terminates on every input (`settleLoop`
is a total function defined by well-founded recursion on the combined
list length: each step emits one transfer and consumes at least one list
entry), producing at most `len debtors + len creditors` transfers. -/
theorem calculate_settlements_length (nt : List (String × Int)) :
    (calculate_settlements nt).length
      ≤ (debtorsOf nt).length + (creditorsOf nt).length :=
  settleLoop_length (debtorsOf nt) (creditorsOf nt)

end BonuslyPoker
